import Mathlib

/-!
Verification of the fastest-address race in `fastip/ping.go`.

The Go file implements a bounded-time race: given a list of candidate IP
addresses, `pingAll` answers from a latency cache when it can, and otherwise
launches one TCP-dial goroutine per uncached (address, port) pair, waits for
the first successful probe or a deadline, and merges the live winner with the
best cached candidate.

Shallow embedding choices:
* `netip.Addr` is opaque here, modelled as `Nat`; `netip.AddrPort` is an
  address paired with a port.
* The latency cache is external to this file's source (`cacheFind`,
  `cacheAddSuccessful`, `cacheAddFailure` live in another file of the repo);
  a cache state is modelled as a read-only lookup function
  `Nat → Option CacheEntry`, and the write operations as an explicit
  `CacheEffect` value produced by the probe worker.
* Goroutine scheduling is modelled by returning the list of `AddrPort` pairs
  for which a probe worker is started (`go f.pingDoTCP(...)` calls in source
  order).
* The result channel plus deadline is modelled by the list of results that
  arrive on the channel before the deadline fires, in arrival order; the end
  of the list is the deadline elapsing.
-/

/-- A cache entry as read through `cacheFind`: a status word (`0` denotes a
successful past probe, any other value a recorded failure) and the cached
latency in whole milliseconds.  Mirrors the fields `status` and `latencyMsec`
used by `schedulePings`. -/
structure CacheEntry where
  status : Nat
  latencyMsec : Nat
deriving DecidableEq

/-- `netip.AddrPort`: an address (opaque, modelled as `Nat`) with a port. -/
structure AddrPort where
  addr : Nat
  port : Nat
deriving DecidableEq

/-- `pingResult`: the outcome of dialing one address-port pair (`addrPort`),
with the dial latency in milliseconds and a success flag. -/
structure PingResult where
  addrPort : AddrPort
  latency : Nat
  success : Bool
deriving DecidableEq

/-- A cache write performed by a probe worker: `f.cacheAddSuccessful(addr,
latency)` or `f.cacheAddFailure(addr)`. -/
inductive CacheEffect where
  | addSuccessful (addr : Nat) (latency : Nat)
  | addFailure (addr : Nat)
deriving DecidableEq

/-- The outcome of one `f.pinger.Dial("tcp", ...)` call as observed by
`pingDoTCP`: whether `err != nil`, and the measured elapsed wall time in
nanoseconds (`time.Since(start)`). -/
structure DialOutcome where
  err : Bool
  elapsedNs : Nat
deriving DecidableEq

/-- The `cached.latencyMsec < pr.latency` half of the candidate-update test in
`schedulePings`: true when `pr == nil` or the cached latency is strictly
smaller than the held candidate's latency. -/
def latBeats (lat : Nat) (pr : Option PingResult) : Bool :=
  match pr with
  | none => true
  | some p => decide (lat < p.latency)

/-- The loop body of `schedulePings`, recursing over the remaining addresses
and carrying the mutable locals `pr` (best cached candidate so far) and
`scheduled` across iterations.  The third component of the result collects, in
launch order, the address-port pairs for which `go f.pingDoTCP(...)` is
executed. -/
def schedulePingsLoop (cache : Nat → Option CacheEntry) (pingPorts : List Nat) :
    List Nat → Option PingResult → Bool → Option PingResult × Bool × List AddrPort
  | [], pr, scheduled => (pr, scheduled, [])
  | ip :: rest, pr, scheduled =>
    match cache ip with
    | none =>
      let r := schedulePingsLoop cache pingPorts rest pr true
      (r.1, r.2.1, pingPorts.map (fun port => ⟨ip, port⟩) ++ r.2.2)
    | some cached =>
      if cached.status == 0 && latBeats cached.latencyMsec pr then
        schedulePingsLoop cache pingPorts rest
          (some ⟨⟨ip, 0⟩, cached.latencyMsec, true⟩) scheduled
      else
        schedulePingsLoop cache pingPorts rest pr scheduled

/-- `schedulePings`: scans the addresses in input order; an uncached address
sets `scheduled` and starts one probe worker per configured port; a cached
success entry competes for the candidate slot (strictly smaller latency
replaces); a cached failure entry does nothing. -/
def schedulePings (cache : Nat → Option CacheEntry) (pingPorts : List Nat)
    (ips : List Nat) : Option PingResult × Bool × List AddrPort :=
  schedulePingsLoop cache pingPorts ips none false

/-- `firstSuccessRes`: the arbiter loop.  `arrivals` is the sequence of
results received from the channel before the deadline; reaching the end of
the list is the `<-after` branch, returning `nil`.  A result with
`success == false` is skipped (`continue`); the first successful result is
returned. -/
def firstSuccessRes : List PingResult → Option PingResult
  | [] => none
  | res :: rest => if res.success then some res else firstSuccessRes rest

/-- Capacity of the result channel created by `pingAll`:
`make(chan *pingResult, ipN*len(f.pingPorts))`. -/
def resChCapacity (ips : List Nat) (pingPorts : List Nat) : Nat :=
  ips.length * pingPorts.length

/-- `pingAll`: the coordinator.  Returns the decided result together with the
list of probe workers started (empty on the 0/1-address fast paths).  The
`latency` field of the single-address result is Go's zero value `0`: no
measurement is taken there. -/
def pingAll (cache : Nat → Option CacheEntry) (pingPorts : List Nat)
    (ips : List Nat) (arrivals : List PingResult) :
    Option PingResult × List AddrPort :=
  match ips with
  | [] => (none, [])
  | [ip] => (some ⟨⟨ip, 0⟩, 0, true⟩, [])
  | _ :: _ :: _ =>
    let s := schedulePings cache pingPorts ips
    if s.2.1 then
      match firstSuccessRes arrivals with
      | none => (s.1, s.2.2)
      | some res =>
        match s.1 with
        | none => (some res, s.2.2)
        | some p =>
          if res.latency ≤ p.latency then (some res, s.2.2) else (some p, s.2.2)
    else
      (s.1, s.2.2)

/-- `pingDoTCP`: one probe worker, given the observed dial outcome.  Returns
the list of results it sends on the channel (always exactly one) and the
cache write it performs.  `latency` is `uint(elapsed.Milliseconds())`, i.e.
the elapsed nanoseconds floor-divided by 10^6; the cache key is
`addrPort.Addr().Unmap()`, modelled by the caller-supplied canonicalisation
`unmap` applied to the address, never involving the port. -/
def pingDoTCP (unmap : Nat → Nat) (addrPort : AddrPort) (outcome : DialOutcome) :
    List PingResult × CacheEffect :=
  let success := !outcome.err
  let latency := outcome.elapsedNs / 1000000
  ([⟨addrPort, latency, success⟩],
    if success then
      CacheEffect.addSuccessful (unmap addrPort.addr) latency
    else
      CacheEffect.addFailure (unmap addrPort.addr))

/-- Spec-side description of the candidate selection (used for the refinement
claim about the all-cached fast path): "the returned address is the one with
minimum cached latency (first in input order on ties)".  Written as head
recursion: the head wins against the best of the tail whenever its latency is
less than or equal (first-wins on ties); failure entries and uncached
addresses contribute nothing. -/
def bestCachedSpec (cache : Nat → Option CacheEntry) : List Nat → Option PingResult
  | [] => none
  | ip :: rest =>
    let tail := bestCachedSpec cache rest
    match cache ip with
    | none => tail
    | some e =>
      if e.status = 0 then
        match tail with
        | none => some ⟨⟨ip, 0⟩, e.latencyMsec, true⟩
        | some t =>
          if e.latencyMsec ≤ t.latency then some ⟨⟨ip, 0⟩, e.latencyMsec, true⟩
          else some t
      else tail

/-! ### Helper lemmas about the scheduling loop -/

/-- The `scheduled` flag out of the loop is the initial flag or-ed with
"some remaining address is uncached". -/
lemma schedulePingsLoop_scheduled (cache : Nat → Option CacheEntry)
    (ports : List Nat) (ips : List Nat) (pr : Option PingResult) (sch : Bool) :
    (schedulePingsLoop cache ports ips pr sch).2.1 =
      (sch || ips.any fun x => (cache x).isNone) := by
  induction ips generalizing pr sch with
  | nil => simp [schedulePingsLoop]
  | cons ip rest ih =>
    cases hc : cache ip with
    | none => simp [schedulePingsLoop, hc, ih]
    | some cached =>
      by_cases hcond : (cached.status == 0 && latBeats cached.latencyMsec pr) = true
      · simp [schedulePingsLoop, hc, hcond, ih]
      · simp only [Bool.not_eq_true] at hcond
        simp [schedulePingsLoop, hc, hcond, ih]

/-- Every probe the loop starts targets an uncached address. -/
lemma schedulePingsLoop_probes_uncached (cache : Nat → Option CacheEntry)
    (ports : List Nat) (ips : List Nat) (pr : Option PingResult) (sch : Bool) :
    ∀ p ∈ (schedulePingsLoop cache ports ips pr sch).2.2, cache p.addr = none := by
  induction ips generalizing pr sch with
  | nil => simp [schedulePingsLoop]
  | cons ip rest ih =>
    intro p hp
    cases hc : cache ip with
    | none =>
      simp only [schedulePingsLoop, hc, List.mem_append, List.mem_map] at hp
      rcases hp with ⟨port, _, rfl⟩ | hp
      · exact hc
      · exact ih pr true p hp
    | some cached =>
      by_cases hcond : (cached.status == 0 && latBeats cached.latencyMsec pr) = true
      · simp only [schedulePingsLoop, hc, hcond, if_true] at hp
        exact ih _ sch p hp
      · simp only [Bool.not_eq_true] at hcond
        simp only [schedulePingsLoop, hc, hcond, Bool.false_eq_true, if_false] at hp
        exact ih pr sch p hp

/-- For an uncached address in the list, the loop starts one probe per
configured port. -/
lemma schedulePingsLoop_probe_mem (cache : Nat → Option CacheEntry)
    (ports : List Nat) (ips : List Nat) (pr : Option PingResult) (sch : Bool)
    (ip : Nat) (hip : ip ∈ ips) (hun : cache ip = none)
    (port : Nat) (hport : port ∈ ports) :
    (⟨ip, port⟩ : AddrPort) ∈ (schedulePingsLoop cache ports ips pr sch).2.2 := by
  induction ips generalizing pr sch with
  | nil => cases hip
  | cons x rest ih =>
    rcases List.mem_cons.mp hip with rfl | hmem
    · simp only [schedulePingsLoop, hun]
      exact List.mem_append_left _ (List.mem_map.mpr ⟨port, hport, rfl⟩)
    · cases hc : cache x with
      | none =>
        simp only [schedulePingsLoop, hc]
        exact List.mem_append_right _ (ih pr true hmem)
      | some cached =>
        by_cases hcond : (cached.status == 0 && latBeats cached.latencyMsec pr) = true
        · simp only [schedulePingsLoop, hc, hcond, if_true]
          exact ih _ sch hmem
        · simp only [Bool.not_eq_true] at hcond
          simp only [schedulePingsLoop, hc, hcond, Bool.false_eq_true, if_false]
          exact ih pr sch hmem

/-- The loop never starts more probes than (number of addresses) times
(number of ports). -/
lemma schedulePingsLoop_probes_length (cache : Nat → Option CacheEntry)
    (ports : List Nat) (ips : List Nat) (pr : Option PingResult) (sch : Bool) :
    (schedulePingsLoop cache ports ips pr sch).2.2.length ≤
      ips.length * ports.length := by
  induction ips generalizing pr sch with
  | nil => simp [schedulePingsLoop]
  | cons ip rest ih =>
    cases hc : cache ip with
    | none =>
      simp only [schedulePingsLoop, hc, List.length_append, List.length_map,
        List.length_cons, Nat.succ_mul]
      have := ih pr true
      omega
    | some cached =>
      have hle : rest.length * ports.length ≤ (ip :: rest).length * ports.length := by
        simp only [List.length_cons, Nat.succ_mul]
        omega
      by_cases hcond : (cached.status == 0 && latBeats cached.latencyMsec pr) = true
      · simp only [schedulePingsLoop, hc, hcond, if_true]
        exact le_trans (ih _ sch) hle
      · simp only [Bool.not_eq_true] at hcond
        simp only [schedulePingsLoop, hc, hcond, Bool.false_eq_true, if_false]
        exact le_trans (ih pr sch) hle

/-- An address whose cache entry records a failure is inert: the loop behaves
exactly as if that address were removed from the input. -/
lemma schedulePingsLoop_failure_filter (cache : Nat → Option CacheEntry)
    (ports : List Nat) (a : Nat) (e : CacheEntry)
    (hfind : cache a = some e) (hfail : e.status ≠ 0)
    (ips : List Nat) (pr : Option PingResult) (sch : Bool) :
    schedulePingsLoop cache ports ips pr sch =
      schedulePingsLoop cache ports (ips.filter fun x => x ≠ a) pr sch := by
  induction ips generalizing pr sch with
  | nil => rfl
  | cons x rest ih =>
    by_cases hxa : x = a
    · have hcx : cache x = some e := by rw [hxa]; exact hfind
      have hcond : (e.status == 0 && latBeats e.latencyMsec pr) = false := by
        simp [hfail]
      have hfilter : ((x :: rest).filter fun y => y ≠ a) =
          rest.filter fun y => y ≠ a := by
        simp [hxa]
      rw [hfilter, schedulePingsLoop]
      simp only [hcx, hcond, Bool.false_eq_true, if_false]
      exact ih pr sch
    · have hfilter : ((x :: rest).filter fun y => y ≠ a) =
          x :: rest.filter fun y => y ≠ a := by
        simp [hxa]
      rw [hfilter]
      cases hc : cache x with
      | none =>
        simp only [schedulePingsLoop, hc]
        rw [ih pr true]
      | some cached =>
        by_cases hcond : (cached.status == 0 && latBeats cached.latencyMsec pr) = true
        · simp only [schedulePingsLoop, hc, hcond, if_true]
          exact ih _ sch
        · simp only [Bool.not_eq_true] at hcond
          simp only [schedulePingsLoop, hc, hcond, Bool.false_eq_true, if_false]
          exact ih pr sch

/-- Every candidate the loop ever holds is marked successful: the loop only
creates results with `success := true`. -/
lemma schedulePingsLoop_pr_success (cache : Nat → Option CacheEntry)
    (ports : List Nat) (ips : List Nat) (pr : Option PingResult) (sch : Bool)
    (hpr : ∀ p, pr = some p → p.success = true) :
    ∀ q, (schedulePingsLoop cache ports ips pr sch).1 = some q → q.success = true := by
  induction ips generalizing pr sch with
  | nil =>
    intro q hq
    exact hpr q hq
  | cons ip rest ih =>
    intro q hq
    cases hc : cache ip with
    | none =>
      simp only [schedulePingsLoop, hc] at hq
      exact ih pr true hpr q hq
    | some cached =>
      by_cases hcond : (cached.status == 0 && latBeats cached.latencyMsec pr) = true
      · simp only [schedulePingsLoop, hc, hcond, if_true] at hq
        refine ih _ sch ?_ q hq
        intro p hp
        injection hp with hp
        rw [← hp]
      · simp only [Bool.not_eq_true] at hcond
        simp only [schedulePingsLoop, hc, hcond, Bool.false_eq_true, if_false] at hq
        exact ih pr sch hpr q hq

/-! ### Helper lemmas about the arbiter -/

/-- `firstSuccessRes` is exactly "first element with `success = true`". -/
lemma firstSuccessRes_eq_find (l : List PingResult) :
    firstSuccessRes l = l.find? fun r => r.success := by
  induction l with
  | nil => rfl
  | cons res rest ih =>
    by_cases h : res.success = true
    · simp [firstSuccessRes, List.find?_cons, h]
    · simp only [Bool.not_eq_true] at h
      simp [firstSuccessRes, List.find?_cons, h, ih]

/-- Whatever the arbiter returns is a successful result. -/
lemma firstSuccessRes_success (l : List PingResult) (r : PingResult)
    (h : firstSuccessRes l = some r) : r.success = true := by
  rw [firstSuccessRes_eq_find] at h
  exact List.find?_some h

/-- Merge of an already-held candidate with the best of the remaining
addresses: the later value replaces the earlier one only when strictly
faster (the earlier wins ties), matching the loop's strict `<` update. -/
def mergeCand : Option PingResult → Option PingResult → Option PingResult
  | none, t => t
  | some p, none => some p
  | some p, some t => if t.latency < p.latency then some t else some p

/-- `mergeCand` is associative: merging candidates one at a time from the
left agrees with merging a head candidate against the merged tail. -/
lemma mergeCand_assoc (a b d : Option PingResult) :
    mergeCand (mergeCand a b) d = mergeCand a (mergeCand b d) := by
  cases a with
  | none => rfl
  | some p =>
    cases b with
    | none => rfl
    | some q =>
      cases d with
      | none =>
        simp only [mergeCand]
        split_ifs <;> simp [mergeCand]
      | some r =>
        simp only [mergeCand]
        by_cases h1 : q.latency < p.latency <;>
          by_cases h2 : r.latency < q.latency <;>
            by_cases h3 : r.latency < p.latency <;>
              simp [h1, h2, h3, mergeCand] <;> omega

/-- One step of `bestCachedSpec` over a successfully cached head address is a
`mergeCand` with the head's candidate. -/
lemma bestCachedSpec_cons_success (cache : Nat → Option CacheEntry)
    (ip : Nat) (rest : List Nat) (e : CacheEntry)
    (hce : cache ip = some e) (hst : e.status = 0) :
    bestCachedSpec cache (ip :: rest) =
      mergeCand (some ⟨⟨ip, 0⟩, e.latencyMsec, true⟩) (bestCachedSpec cache rest) := by
  cases hB : bestCachedSpec cache rest with
  | none => simp [bestCachedSpec, hce, hst, hB, mergeCand]
  | some t =>
    simp only [bestCachedSpec, hce, hst, hB, if_true, mergeCand]
    split_ifs <;> first | rfl | omega

/-- When every address has a successful cache entry, the loop schedules
nothing, leaves the flag unchanged, and its candidate is the held candidate
merged with the spec-side "minimum latency, first on ties" choice. -/
lemma schedulePingsLoop_all_cached (cache : Nat → Option CacheEntry)
    (ports : List Nat) (ips : List Nat) (pr : Option PingResult) (sch : Bool)
    (hall : ∀ ip ∈ ips, ∃ e, cache ip = some e ∧ e.status = 0) :
    schedulePingsLoop cache ports ips pr sch =
      (mergeCand pr (bestCachedSpec cache ips), sch, []) := by
  induction ips generalizing pr sch with
  | nil => cases pr <;> simp [schedulePingsLoop, bestCachedSpec, mergeCand]
  | cons ip rest ih =>
    obtain ⟨e, hce, hst⟩ := hall ip (List.mem_cons_self ip rest)
    have hrest : ∀ x ∈ rest, ∃ e, cache x = some e ∧ e.status = 0 :=
      fun x hx => hall x (List.mem_cons_of_mem ip hx)
    rw [bestCachedSpec_cons_success cache ip rest e hce hst]
    cases pr with
    | none =>
      have hcond : (e.status == 0 && latBeats e.latencyMsec none) = true := by
        simp [hst, latBeats]
      simp only [schedulePingsLoop, hce, hcond, if_true]
      rw [ih _ sch hrest]
      rfl
    | some p =>
      by_cases hlt : e.latencyMsec < p.latency
      · have hcond : (e.status == 0 && latBeats e.latencyMsec (some p)) = true := by
          simp [hst, latBeats, hlt]
        have hmerge : mergeCand (some p) (some ⟨⟨ip, 0⟩, e.latencyMsec, true⟩) =
            some ⟨⟨ip, 0⟩, e.latencyMsec, true⟩ := by
          simp [mergeCand, hlt]
        simp only [schedulePingsLoop, hce, hcond, if_true]
        rw [ih _ sch hrest, ← mergeCand_assoc, hmerge]
      · have hcond : (e.status == 0 && latBeats e.latencyMsec (some p)) = false := by
          simp [latBeats, hlt]
        have hmerge : mergeCand (some p) (some ⟨⟨ip, 0⟩, e.latencyMsec, true⟩) =
            some p := by
          simp [mergeCand, hlt]
        simp only [schedulePingsLoop, hce, hcond, Bool.false_eq_true, if_false]
        rw [ih _ sch hrest, ← mergeCand_assoc, hmerge]

/-! ### Claim theorems -/

/-- Claim C2: an address whose cache lookup returns a failure entry
contributes no candidate and gets no probe worker on any port: no scheduled
probe targets it, and the whole scan result (candidate, flag, probes) is as
if the address were absent from the input list. -/
theorem schedulePings_failure_inert
    (cache : Nat → Option CacheEntry) (ports : List Nat) (ips : List Nat)
    (a : Nat) (e : CacheEntry) (hfind : cache a = some e) (hfail : e.status ≠ 0) :
    (∀ p ∈ (schedulePings cache ports ips).2.2, p.addr ≠ a) ∧
    schedulePings cache ports ips =
      schedulePings cache ports (ips.filter fun x => x ≠ a) := by
  constructor
  · intro p hp hpa
    have huncached := schedulePingsLoop_probes_uncached cache ports ips none false p hp
    rw [hpa, hfind] at huncached
    simp at huncached
  · exact schedulePingsLoop_failure_filter cache ports a e hfind hfail ips none false

/-- Witness for C2 at a concrete input: address 0 has a failed entry among
`[0, 1]`; no probe targets it and the scan equals the scan of `[1]`. -/
theorem schedulePings_failure_inert_witness :
    (∀ p ∈ (schedulePings (fun x => if x = 0 then some ⟨1, 5⟩ else none)
        [80] [0, 1]).2.2, p.addr ≠ 0) ∧
    schedulePings (fun x => if x = 0 then some ⟨1, 5⟩ else none) [80] [0, 1] =
      schedulePings (fun x => if x = 0 then some ⟨1, 5⟩ else none) [80]
        ([0, 1].filter fun x => x ≠ 0) :=
  schedulePings_failure_inert (fun x => if x = 0 then some ⟨1, 5⟩ else none)
    [80] [0, 1] 0 ⟨1, 5⟩ (by decide) (by decide)

/-- Claim C6: the arbiter returns exactly the first arriving result whose
success flag is true (discarding failed results), and returns absent
precisely when every result arriving before the deadline is a failure. -/
theorem firstSuccessRes_spec (l : List PingResult) :
    firstSuccessRes l = (l.find? fun r => r.success) ∧
    (firstSuccessRes l = none ↔ ∀ r ∈ l, r.success = false) := by
  refine ⟨firstSuccessRes_eq_find l, ?_⟩
  rw [firstSuccessRes_eq_find l, List.find?_eq_none]
  simp

/-- Claim C7: on completion the probe worker's cache write is keyed on the
(canonicalised) address only, never the port: a successful dial records a
success entry with the elapsed time floor-divided to whole milliseconds, a
failed dial records a failure entry, and the write is the same for any port
paired with the same address. -/
theorem pingDoTCP_cache_update (unmap : Nat → Nat) (ap : AddrPort)
    (o : DialOutcome) :
    ((pingDoTCP unmap ap o).2 =
      if o.err = false then
        CacheEffect.addSuccessful (unmap ap.addr) (o.elapsedNs / 1000000)
      else
        CacheEffect.addFailure (unmap ap.addr)) ∧
    ∀ port, (pingDoTCP unmap ⟨ap.addr, port⟩ o).2 = (pingDoTCP unmap ap o).2 := by
  constructor
  · cases o with
    | mk err el => cases err <;> simp [pingDoTCP]
  · intro port
    cases o with
    | mk err el => cases err <;> simp [pingDoTCP]

/-- Counterexample for C8 as stated: with addresses `[0, 1]`, one port, and
address 0 already cached as a success, the channel is created with capacity
`2` (addresses times ports) while only `1` probe is scheduled — the capacity
is not equal to the number of probes scheduled. -/
theorem resChCapacity_neq_scheduled_cex :
    resChCapacity [0, 1] [80] = 2 ∧
    (schedulePings (fun x => if x = 0 then some ⟨0, 10⟩ else none)
      [80] [0, 1]).2.2.length = 1 := by
  constructor <;> rfl

/-- Claim C8 (amended): each probe worker sends exactly one result, and the
sink capacity `len(ips) * len(ports)` is an upper bound on the number of
probes scheduled, so every worker's single send fits the capacity and never
blocks even if the arbiter has stopped reading. -/
theorem probe_sends_fit_capacity (cache : Nat → Option CacheEntry)
    (ports : List Nat) (ips : List Nat) :
    (∀ unmap ap o, (pingDoTCP unmap ap o).1.length = 1) ∧
    (schedulePings cache ports ips).2.2.length ≤ resChCapacity ips ports := by
  constructor
  · intro unmap ap o
    rfl
  · exact schedulePingsLoop_probes_length cache ports ips none false

/-- Claim C9: a singleton address list returns that address as a trivial
success (latency left at the zero value) with no probe started, and the empty
list returns absent with no probe started; the cache and the arrival sequence
are universally quantified and unused, so no cache lookup and no network
activity can influence these two fast paths. -/
theorem pingAll_trivial_lists (cache : Nat → Option CacheEntry)
    (ports : List Nat) (arrivals : List PingResult) (ip : Nat) :
    pingAll cache ports [ip] arrivals = (some ⟨⟨ip, 0⟩, 0, true⟩, []) ∧
    pingAll cache ports ([] : List Nat) arrivals = (none, []) :=
  ⟨rfl, rfl⟩

/-- Claim C3: when the arbiter yields a winner, the fresh result is returned
whenever no cached candidate exists or its latency is less than or equal to
the candidate's latency (`<=` favours the live result on exact ties); the
cached candidate is returned only when strictly faster. -/
theorem pingAll_winner_vs_candidate
    (cache : Nat → Option CacheEntry) (ports : List Nat) (ips : List Nat)
    (arrivals : List PingResult) (res : PingResult)
    (hlen : 2 ≤ ips.length)
    (hsch : (schedulePings cache ports ips).2.1 = true)
    (hres : firstSuccessRes arrivals = some res) :
    ((schedulePings cache ports ips).1 = none →
      (pingAll cache ports ips arrivals).1 = some res) ∧
    ∀ p, (schedulePings cache ports ips).1 = some p →
      (res.latency ≤ p.latency → (pingAll cache ports ips arrivals).1 = some res) ∧
      (p.latency < res.latency → (pingAll cache ports ips arrivals).1 = some p) := by
  obtain ⟨a, rest, rfl⟩ : ∃ a r, ips = a :: r := by
    cases ips with
    | nil => simp at hlen
    | cons a r => exact ⟨a, r, rfl⟩
  obtain ⟨b, rest2, rfl⟩ : ∃ b r, rest = b :: r := by
    cases rest with
    | nil => simp at hlen
    | cons b r => exact ⟨b, r, rfl⟩
  constructor
  · intro h1
    simp [pingAll, hsch, hres, h1]
  · intro p hp
    constructor
    · intro hle
      simp [pingAll, hsch, hres, hp, hle]
    · intro hlt
      have hnle : ¬res.latency ≤ p.latency := by omega
      simp [pingAll, hsch, hres, hp, hnle]

/-- Witness for C3: address 0 cached at 50 ms, address 1 uncached, its live
probe wins at 30 ms; the live result is returned. -/
theorem pingAll_winner_vs_candidate_witness :
    (pingAll (fun x => if x = 0 then some ⟨0, 50⟩ else none) [80] [0, 1]
      [⟨⟨1, 80⟩, 30, true⟩]).1 = some ⟨⟨1, 80⟩, 30, true⟩ :=
  ((pingAll_winner_vs_candidate (fun x => if x = 0 then some ⟨0, 50⟩ else none)
      [80] [0, 1] [⟨⟨1, 80⟩, 30, true⟩] ⟨⟨1, 80⟩, 30, true⟩
      (by decide) (by decide) (by decide)).2
    ⟨⟨0, 0⟩, 50, true⟩ (by decide)).1 (by decide)

/-- Claim C4: when probes were scheduled but the arbiter comes back empty
(deadline with no success), `pingAll` returns the candidate collected during
the cache scan — possibly absent — as a normal return value. -/
theorem pingAll_timeout_returns_candidate
    (cache : Nat → Option CacheEntry) (ports : List Nat) (ips : List Nat)
    (arrivals : List PingResult)
    (hlen : 2 ≤ ips.length)
    (hsch : (schedulePings cache ports ips).2.1 = true)
    (hnone : firstSuccessRes arrivals = none) :
    (pingAll cache ports ips arrivals).1 = (schedulePings cache ports ips).1 := by
  obtain ⟨a, rest, rfl⟩ : ∃ a r, ips = a :: r := by
    cases ips with
    | nil => simp at hlen
    | cons a r => exact ⟨a, r, rfl⟩
  obtain ⟨b, rest2, rfl⟩ : ∃ b r, rest = b :: r := by
    cases rest with
    | nil => simp at hlen
    | cons b r => exact ⟨b, r, rfl⟩
  simp [pingAll, hsch, hnone]

/-- Witness for C4: both addresses uncached, the only arrival is a failed
probe, so the arbiter times out and the (absent) candidate is returned. -/
theorem pingAll_timeout_returns_candidate_witness :
    (pingAll (fun _ => none) [80] [0, 1] [⟨⟨0, 80⟩, 10, false⟩]).1 =
      (schedulePings (fun _ => none) [80] [0, 1]).1 :=
  pingAll_timeout_returns_candidate (fun _ => none) [80] [0, 1]
    [⟨⟨0, 80⟩, 10, false⟩] (by decide) (by decide) (by decide)

/-- Claim C5: when every address (list length at least 2) has a successful
cache entry, no probe worker is started and the result — independent of the
arrival sequence, which the fast path never waits on — is the address with
minimum cached latency, the first such address in input order on ties, as
expressed by `bestCachedSpec`. -/
theorem pingAll_all_cached_returns_min
    (cache : Nat → Option CacheEntry) (ports : List Nat) (ips : List Nat)
    (arrivals : List PingResult)
    (hlen : 2 ≤ ips.length)
    (hall : ∀ ip ∈ ips, ∃ e, cache ip = some e ∧ e.status = 0) :
    (pingAll cache ports ips arrivals).2 = [] ∧
    (pingAll cache ports ips arrivals).1 = bestCachedSpec cache ips := by
  have hloop := schedulePingsLoop_all_cached cache ports ips none false hall
  have hsch : (schedulePings cache ports ips).2.1 = false := by
    rw [schedulePings, hloop]
  have hprobes : (schedulePings cache ports ips).2.2 = [] := by
    rw [schedulePings, hloop]
  have hpr : (schedulePings cache ports ips).1 = bestCachedSpec cache ips := by
    rw [schedulePings, hloop]
    rfl
  obtain ⟨a, rest, rfl⟩ : ∃ a r, ips = a :: r := by
    cases ips with
    | nil => simp at hlen
    | cons a r => exact ⟨a, r, rfl⟩
  obtain ⟨b, rest2, rfl⟩ : ∃ b r, rest = b :: r := by
    cases rest with
    | nil => simp at hlen
    | cons b r => exact ⟨b, r, rfl⟩
  simp [pingAll, hsch, hprobes, hpr]

/-- Witness for C5: both addresses cached successfully at equal latency; no
probe is started and the first address wins the tie. -/
theorem pingAll_all_cached_returns_min_witness :
    (pingAll (fun _ => some ⟨0, 30⟩) [80] [7, 8] [⟨⟨8, 80⟩, 1, true⟩]).2 = [] ∧
    (pingAll (fun _ => some ⟨0, 30⟩) [80] [7, 8] [⟨⟨8, 80⟩, 1, true⟩]).1 =
      bestCachedSpec (fun _ => some ⟨0, 30⟩) [7, 8] :=
  pingAll_all_cached_returns_min (fun _ => some ⟨0, 30⟩) [80] [7, 8]
    [⟨⟨8, 80⟩, 1, true⟩] (by decide) (fun ip _ => ⟨⟨0, 30⟩, rfl, rfl⟩)

/-- Claim C10: every non-absent result `pingAll` returns carries
`success = true`: the singleton fast path, every cached candidate and every
arbiter winner are constructed with a true success flag. -/
theorem pingAll_result_always_success
    (cache : Nat → Option CacheEntry) (ports : List Nat) (ips : List Nat)
    (arrivals : List PingResult) (r : PingResult)
    (h : (pingAll cache ports ips arrivals).1 = some r) :
    r.success = true := by
  have hinit : ∀ p : PingResult, (none : Option PingResult) = some p →
      p.success = true := by
    intro p hp
    simp at hp
  cases ips with
  | nil => simp [pingAll] at h
  | cons a rest =>
    cases rest with
    | nil =>
      simp only [pingAll, Option.some.injEq] at h
      rw [← h]
    | cons b rest2 =>
      by_cases hsch : (schedulePings cache ports (a :: b :: rest2)).2.1 = true
      · cases hfsr : firstSuccessRes arrivals with
        | none =>
          simp only [pingAll, hsch, if_true, hfsr] at h
          exact schedulePingsLoop_pr_success cache ports (a :: b :: rest2)
            none false hinit r h
        | some res =>
          have hres : res.success = true := firstSuccessRes_success arrivals res hfsr
          cases hs1 : (schedulePings cache ports (a :: b :: rest2)).1 with
          | none =>
            simp only [pingAll, hsch, if_true, hfsr, hs1, Option.some.injEq] at h
            rw [← h]
            exact hres
          | some p =>
            have hp : p.success = true := schedulePingsLoop_pr_success cache ports
              (a :: b :: rest2) none false hinit p hs1
            simp only [pingAll, hsch, if_true, hfsr, hs1] at h
            by_cases hle : res.latency ≤ p.latency
            · rw [if_pos hle] at h
              simp only [Option.some.injEq] at h
              rw [← h]
              exact hres
            · rw [if_neg hle] at h
              simp only [Option.some.injEq] at h
              rw [← h]
              exact hp
      · have hsch' : (schedulePings cache ports (a :: b :: rest2)).2.1 = false := by
          simpa using hsch
        simp only [pingAll, hsch', Bool.false_eq_true, if_false] at h
        exact schedulePingsLoop_pr_success cache ports (a :: b :: rest2)
          none false hinit r h

/-- Witness for C10: a race where a failed arrival precedes a successful one;
the returned result is the successful arrival, whose flag is true. -/
theorem pingAll_result_always_success_witness :
    (⟨⟨1, 80⟩, 12, true⟩ : PingResult).success = true :=
  pingAll_result_always_success (fun _ => none) [80] [0, 1]
    [⟨⟨0, 80⟩, 9, false⟩, ⟨⟨1, 80⟩, 12, true⟩] ⟨⟨1, 80⟩, 12, true⟩ (by decide)

/-- Counterexample for C1 as stated: with two addresses whose cache entries
both record failures (status 1), an address with a failed cache entry is
present, yet `pingAll` starts no probe worker at all — a failed entry does
not trigger a fresh probe (only a genuinely uncached address does). -/
theorem pingAll_failed_entry_no_probe_cex :
    ((fun _ : Nat => some (⟨1, 5⟩ : CacheEntry)) 0 = some ⟨1, 5⟩ ∧
      (⟨1, 5⟩ : CacheEntry).status ≠ 0 ∧ 0 ∈ ([0, 1] : List Nat)) ∧
    (pingAll (fun _ => some ⟨1, 5⟩) [80] [0, 1] []).2 = [] := by
  constructor
  · exact ⟨rfl, by decide, by decide⟩
  · rfl

/-- Claim C1 (amended): if at least one address is genuinely uncached (a
failed cache entry alone does not trigger probing) and at least one probe
port is configured, then at least one fresh probe worker is started, and the
final decision is the lower-latency of the best live success and the best
cached candidate, with the live result preferred on exact ties (and the
possibly-absent cached candidate returned when no live success arrives). -/
theorem pingAll_uncached_races_and_merges
    (cache : Nat → Option CacheEntry) (ports : List Nat) (ips : List Nat)
    (arrivals : List PingResult) (ip : Nat)
    (hlen : 2 ≤ ips.length) (hip : ip ∈ ips) (hun : cache ip = none)
    (hports : ports ≠ []) :
    (pingAll cache ports ips arrivals).2 ≠ [] ∧
    (pingAll cache ports ips arrivals).1 =
      match firstSuccessRes arrivals with
      | none => (schedulePings cache ports ips).1
      | some res =>
        match (schedulePings cache ports ips).1 with
        | none => some res
        | some p => if res.latency ≤ p.latency then some res else some p := by
  obtain ⟨a, rest, rfl⟩ : ∃ a r, ips = a :: r := by
    cases ips with
    | nil => simp at hlen
    | cons a r => exact ⟨a, r, rfl⟩
  obtain ⟨b, rest2, rfl⟩ : ∃ b r, rest = b :: r := by
    cases rest with
    | nil => simp at hlen
    | cons b r => exact ⟨b, r, rfl⟩
  have hsch : (schedulePings cache ports (a :: b :: rest2)).2.1 = true := by
    rw [schedulePings, schedulePingsLoop_scheduled]
    simp only [Bool.false_or, List.any_eq_true]
    exact ⟨ip, hip, by simp [hun]⟩
  constructor
  · obtain ⟨port, hport⟩ : ∃ port, port ∈ ports := by
      cases ports with
      | nil => exact absurd rfl hports
      | cons q qs => exact ⟨q, List.mem_cons_self q qs⟩
    have hmem := schedulePingsLoop_probe_mem cache ports (a :: b :: rest2)
      none false ip hip hun port hport
    have h2 : (pingAll cache ports (a :: b :: rest2) arrivals).2 =
        (schedulePings cache ports (a :: b :: rest2)).2.2 := by
      simp only [pingAll, hsch, if_true]
      cases hfsr : firstSuccessRes arrivals with
      | none => rfl
      | some res =>
        cases hs1 : (schedulePings cache ports (a :: b :: rest2)).1 with
        | none => rfl
        | some p => by_cases hle : res.latency ≤ p.latency <;> simp [hle]
    rw [h2]
    exact List.ne_nil_of_mem hmem
  · simp only [pingAll, hsch, if_true]
    cases hfsr : firstSuccessRes arrivals with
    | none => rfl
    | some res =>
      cases hs1 : (schedulePings cache ports (a :: b :: rest2)).1 with
      | none => rfl
      | some p => by_cases hle : res.latency ≤ p.latency <;> simp [hle]

/-- Witness for C1 (amended): address 0 cached successfully at 50 ms, address
1 uncached; a probe is started and the live 30 ms success beats the cache. -/
theorem pingAll_uncached_races_and_merges_witness :
    (pingAll (fun x => if x = 0 then some ⟨0, 50⟩ else none) [80] [0, 1]
      [⟨⟨1, 80⟩, 30, true⟩]).2 ≠ [] :=
  (pingAll_uncached_races_and_merges (fun x => if x = 0 then some ⟨0, 50⟩ else none)
    [80] [0, 1] [⟨⟨1, 80⟩, 30, true⟩] 1 (by decide) (by decide) (by decide)
    (by decide)).1
